import Mathlib

/-!
Verification of the shred propagation-delay correlation engine
(`src/main.rs`): two UDP feeds deliver shreds, the engine records the
first-seen timestamp of each shred id per feed, matches ids across feeds,
accumulates delay samples, evicts stale entries on cleanup ticks, and
reports statistics on stats ticks.

Embedding conventions:
- `Instant` is modelled as `Nat` (a point on a global monotone clock).
  Rust's `Instant::duration_since` saturates at zero when the argument is
  later, which is exactly truncated `Nat` subtraction.
- `Duration` is modelled as `Nat` (nanoseconds). `Duration / u32` divides
  exactly (seconds with carry into nanoseconds), i.e. `Nat` floor division;
  dividing by zero panics, modelled as `none`.
- `HashMap<ShredId, Instant>` is modelled as an association list. The
  source only ever calls `insert` under a preceding `contains_key` guard
  returning false, where `HashMap::insert` just adds the entry, so insert
  is modelled as consing the entry.
- Fallible handlers return `Option`: `none` models a panic (the
  `unreachable!()` arm for a port id other than 0/1, and the
  divide-by-zero in the average computation when `len as u32` is zero).
- `len as u32` on a `usize` length is a truncating cast, modelled as
  `% 2 ^ 32`.
-/

namespace ShredPerf

/-- Shred identifiers are opaque hashable values; modelled as `Nat`. -/
abbrev ShredId := Nat

/-- A pending map, from shred id to first-seen instant. -/
abbrev PendingMap := List (ShredId × Nat)

/-- Embedding of `HashMap::contains_key`. -/
def containsKey (m : PendingMap) (k : ShredId) : Bool :=
  m.any (fun p => p.1 == k)

/-- Embedding of `HashMap::get` (the source dereferences the value). -/
def getKey (m : PendingMap) (k : ShredId) : Option Nat :=
  (m.find? (fun p => p.1 == k)).map Prod.snd

/-- Embedding of `HashMap::insert` at the source's call sites, which are
all guarded by a `contains_key` check returning false, where insert just
adds the new entry. -/
def insertKey (m : PendingMap) (k : ShredId) (v : Nat) : PendingMap :=
  (k, v) :: m

/-- Embedding of `ProcessorState` (`src/main.rs` lines 38-43). `delays`
is the `Vec<Duration>` of all recorded delay samples, in push order. -/
structure ProcessorState where
  port0_data : PendingMap
  port1_data : PendingMap
  matched_pairs : Nat
  delays : List Nat
deriving DecidableEq

/-- Embedding of `ProcessorEvent` (`src/main.rs` lines 26-36). The
cleanup tick carries the instant `Instant::now()` observed when the tick
is handled. The `name` field is only used for logging and is dropped. -/
inductive ProcessorEvent where
  | shredReceived (port_id : Nat) (shred_id : ShredId) (timestamp : Nat)
  | cleanup (now : Nat)
  | statsTick
deriving DecidableEq

/-- The initial state built at engine start (`src/main.rs` lines 75-80). -/
def initState : ProcessorState :=
  { port0_data := [], port1_data := [], matched_pairs := 0, delays := [] }

/-- Embedding of `process_shred` (`src/main.rs` lines 147-175). Returns
`none` exactly when the `unreachable!()` arm is reached. The delay is
`timestamp.duration_since(other_time)`, i.e. saturating subtraction. -/
def process_shred (state : ProcessorState) (port_id : Nat) (shred_id : ShredId)
    (timestamp : Nat) : Option ProcessorState :=
  match port_id with
  | 0 =>
    if containsKey state.port0_data shred_id then
      some state
    else
      let st := { state with port0_data := insertKey state.port0_data shred_id timestamp }
      match getKey state.port1_data shred_id with
      | some other_time =>
        some { st with matched_pairs := st.matched_pairs + 1,
                       delays := st.delays ++ [timestamp - other_time] }
      | none => some st
  | 1 =>
    if containsKey state.port1_data shred_id then
      some state
    else
      let st := { state with port1_data := insertKey state.port1_data shred_id timestamp }
      match getKey state.port0_data shred_id with
      | some other_time =>
        some { st with matched_pairs := st.matched_pairs + 1,
                       delays := st.delays ++ [timestamp - other_time] }
      | none => some st
  | _ => none

/-- Embedding of `cleanup_data` (`src/main.rs` lines 177-182): each map
retains exactly the entries with `now.duration_since(t) < timeout`. -/
def cleanup_data (state : ProcessorState) (now timeout : Nat) : ProcessorState :=
  { state with
      port0_data := state.port0_data.filter (fun p => decide (now - p.2 < timeout)),
      port1_data := state.port1_data.filter (fun p => decide (now - p.2 < timeout)) }

/-- The truncating `as u32` cast works modulo this constant. -/
def U32_MOD : Nat := 2 ^ 32

/-- The statistics snapshot logged by `report_stats` (`src/main.rs`
lines 191-199). -/
structure StatsSnapshot where
  port0_len : Nat
  port1_len : Nat
  matched : Nat
  avg_delay : Nat
deriving DecidableEq

/-- Embedding of `report_stats` (`src/main.rs` lines 184-199): if the
delay vector is nonempty, the average is the summed delays divided by
`delays.len() as u32` (a truncating cast); dividing a `Duration` by zero
panics, modelled as `none`. With no samples the average is zero. -/
def report_stats (state : ProcessorState) : Option StatsSnapshot :=
  if state.delays.isEmpty then
    some { port0_len := state.port0_data.length, port1_len := state.port1_data.length,
           matched := state.matched_pairs, avg_delay := 0 }
  else
    let divisor := state.delays.length % U32_MOD
    if divisor = 0 then none
    else
      some { port0_len := state.port0_data.length, port1_len := state.port1_data.length,
             matched := state.matched_pairs, avg_delay := state.delays.sum / divisor }

/-- One step of the processor loop (`src/main.rs` lines 82-94):
dispatch on the event kind. A stats tick only reads the state. -/
def step (timeout : Nat) (state : ProcessorState) : ProcessorEvent → Option ProcessorState
  | ProcessorEvent.shredReceived port_id shred_id timestamp =>
      process_shred state port_id shred_id timestamp
  | ProcessorEvent.cleanup now => some (cleanup_data state now timeout)
  | ProcessorEvent.statsTick => (report_stats state).map (fun _ => state)

/-- Running the processor loop over a queue of events. -/
def runEvents (timeout : Nat) (state : ProcessorState) : List ProcessorEvent → Option ProcessorState
  | [] => some state
  | e :: es =>
    match step timeout state e with
    | some s2 => runEvents timeout s2 es
    | none => none

example : runEvents 60 initState
    [ProcessorEvent.shredReceived 0 7 5, ProcessorEvent.shredReceived 1 7 50] =
    some { port0_data := [(7, 5)], port1_data := [(7, 50)],
           matched_pairs := 1, delays := [45] } := by decide

example : runEvents 60 initState
    [ProcessorEvent.shredReceived 1 7 50, ProcessorEvent.shredReceived 0 7 5] =
    some { port0_data := [(7, 5)], port1_data := [(7, 50)],
           matched_pairs := 1, delays := [0] } := by decide

/-! Basic lemmas about the association-list map operations. -/

theorem containsKey_iff_exists (m : PendingMap) (k : ShredId) :
    containsKey m k = true ↔ ∃ v, (k, v) ∈ m := by
  simp only [containsKey, List.any_eq_true, beq_iff_eq]
  constructor
  · rintro ⟨⟨a, b⟩, hmem, rfl⟩
    exact ⟨b, hmem⟩
  · rintro ⟨v, hv⟩
    exact ⟨(k, v), hv, rfl⟩

theorem getKey_mem (m : PendingMap) (k : ShredId) (v : Nat)
    (h : getKey m k = some v) : (k, v) ∈ m := by
  simp only [getKey, Option.map_eq_some'] at h
  obtain ⟨⟨a, b⟩, hfind, hb⟩ := h
  have hmem := List.mem_of_find?_eq_some hfind
  have hkey := List.find?_some hfind
  simp only [beq_iff_eq] at hkey
  simp only at hb
  subst hkey
  subst hb
  exact hmem

theorem getKey_eq_none_of_not_contains (m : PendingMap) (k : ShredId)
    (h : containsKey m k = false) : getKey m k = none := by
  simp only [containsKey, List.any_eq_false, beq_iff_eq] at h
  simp only [getKey, Option.map_eq_none', List.find?_eq_none, beq_iff_eq]
  exact h

theorem getKey_isSome_of_contains (m : PendingMap) (k : ShredId)
    (h : containsKey m k = true) : ∃ v, getKey m k = some v := by
  simp only [containsKey] at h
  have hsome : (m.find? (fun p => p.1 == k)).isSome := by
    rw [List.find?_isSome]
    simpa using h
  obtain ⟨p, hp⟩ := Option.isSome_iff_exists.mp hsome
  exact ⟨p.2, by simp [getKey, hp]⟩

theorem contains_of_getKey_some (m : PendingMap) (k : ShredId) (v : Nat)
    (h : getKey m k = some v) : containsKey m k = true := by
  rw [containsKey_iff_exists]
  exact ⟨v, getKey_mem m k v h⟩

theorem containsKey_insertKey (m : PendingMap) (k k2 : ShredId) (v : Nat) :
    containsKey (insertKey m k v) k2 = ((k == k2) || containsKey m k2) := by
  simp [insertKey, containsKey]

theorem containsKey_insertKey_self (m : PendingMap) (k : ShredId) (v : Nat) :
    containsKey (insertKey m k v) k = true := by
  simp [containsKey_insertKey]

theorem containsKey_insertKey_of (m : PendingMap) (k k2 : ShredId) (v : Nat)
    (h : containsKey m k2 = true) : containsKey (insertKey m k v) k2 = true := by
  simp [containsKey_insertKey, h]

/-- The key set of a pending map, as a finite set. -/
def keyFinset (m : PendingMap) : Finset ShredId := (m.map Prod.fst).toFinset

theorem mem_keyFinset (m : PendingMap) (k : ShredId) :
    k ∈ keyFinset m ↔ containsKey m k = true := by
  simp only [keyFinset, List.mem_toFinset, List.mem_map, containsKey, List.any_eq_true,
    beq_iff_eq]

theorem keyFinset_insertKey (m : PendingMap) (k : ShredId) (v : Nat) :
    keyFinset (insertKey m k v) = insert k (keyFinset m) := by
  simp [keyFinset, insertKey]

theorem keyFinset_nil : keyFinset [] = ∅ := rfl

/-! Lemmas about running the processor loop. -/

theorem runEvents_append (T : Nat) (es1 es2 : List ProcessorEvent) : ∀ s : ProcessorState,
    runEvents T s (es1 ++ es2) = (runEvents T s es1).bind (fun s2 => runEvents T s2 es2) := by
  induction es1 with
  | nil => intro s; simp [runEvents]
  | cons e es ih =>
    intro s
    simp only [List.cons_append, runEvents]
    cases hstep : step T s e with
    | none => rfl
    | some s2 => exact ih s2

/-- An event queue that produces one match per id: ids 0, 1, ..., n-1 each
arrive on feed 0 and then on feed 1, all with timestamp 0. -/
def mkMatchEvents (n : Nat) : List ProcessorEvent :=
  (List.range n).flatMap (fun i =>
    [ProcessorEvent.shredReceived 0 i 0, ProcessorEvent.shredReceived 1 i 0])

theorem mkMatchEvents_succ (n : Nat) :
    mkMatchEvents (n + 1) = mkMatchEvents n ++
      [ProcessorEvent.shredReceived 0 n 0, ProcessorEvent.shredReceived 1 n 0] := by
  simp [mkMatchEvents, List.range_succ]

/-- Running the match-family queue succeeds and accumulates exactly `n`
delay samples, with both pending maps holding exactly the ids below `n`. -/
theorem mkMatch_spec (T : Nat) : ∀ n : Nat, ∃ s : ProcessorState,
    runEvents T initState (mkMatchEvents n) = some s ∧
    (∀ k : Nat, containsKey s.port0_data k = decide (k < n)) ∧
    (∀ k : Nat, containsKey s.port1_data k = decide (k < n)) ∧
    s.delays.length = n := by
  intro n
  induction n with
  | zero =>
    refine ⟨initState, rfl, ?_, ?_, rfl⟩
    · intro k; simp [initState, containsKey]
    · intro k; simp [initState, containsKey]
  | succ n ih =>
    obtain ⟨s, hrun, h0, h1, hlen⟩ := ih
    have hc0 : containsKey s.port0_data n = false := by simp [h0]
    have hc1 : containsKey s.port1_data n = false := by simp [h1]
    have hg1 : getKey s.port1_data n = none := getKey_eq_none_of_not_contains _ _ hc1
    have hstep1 : process_shred s 0 n 0 =
        some { s with port0_data := insertKey s.port0_data n 0 } := by
      simp [process_shred, hc0, hg1]
    have hcontains0 : containsKey (insertKey s.port0_data n 0) n = true :=
      containsKey_insertKey_self _ _ _
    obtain ⟨v, hg0⟩ := getKey_isSome_of_contains _ _ hcontains0
    have hstep2 : process_shred { s with port0_data := insertKey s.port0_data n 0 } 1 n 0 =
        some { port0_data := insertKey s.port0_data n 0,
               port1_data := insertKey s.port1_data n 0,
               matched_pairs := s.matched_pairs + 1,
               delays := s.delays ++ [0 - v] } := by
      simp [process_shred, hc1, hg0]
    refine ⟨{ port0_data := insertKey s.port0_data n 0,
              port1_data := insertKey s.port1_data n 0,
              matched_pairs := s.matched_pairs + 1,
              delays := s.delays ++ [0 - v] }, ?_, ?_, ?_, ?_⟩
    · rw [mkMatchEvents_succ, runEvents_append T _ _ initState, hrun]
      simp [runEvents, step, hstep1, hstep2]
    · intro k
      rw [containsKey_insertKey]
      by_cases hk : n = k
      · subst hk; simp
      · have hne : (n == k) = false := by simpa using hk
        rw [hne, Bool.false_or, h0 k, decide_eq_decide]
        omega
    · intro k
      rw [containsKey_insertKey]
      by_cases hk : n = k
      · subst hk; simp
      · have hne : (n == k) = false := by simpa using hk
        rw [hne, Bool.false_or, h1 k, decide_eq_decide]
        omega
    · simpa using hlen

/-- Full case analysis of a successful `process_shred` call: the feed
index is 0 or 1, and the call is a duplicate discard, a fresh insert with
a cross-feed match, or a fresh insert without a match. -/
theorem process_shred_cases (s s2 : ProcessorState) (pid sid ts : Nat)
    (h : process_shred s pid sid ts = some s2) :
    (pid = 0 ∧ containsKey s.port0_data sid = true ∧ s2 = s) ∨
    (pid = 1 ∧ containsKey s.port1_data sid = true ∧ s2 = s) ∨
    (pid = 0 ∧ containsKey s.port0_data sid = false ∧
      ∃ ot, getKey s.port1_data sid = some ot ∧
        s2 = { s with port0_data := insertKey s.port0_data sid ts,
                      matched_pairs := s.matched_pairs + 1,
                      delays := s.delays ++ [ts - ot] }) ∨
    (pid = 0 ∧ containsKey s.port0_data sid = false ∧ getKey s.port1_data sid = none ∧
      s2 = { s with port0_data := insertKey s.port0_data sid ts }) ∨
    (pid = 1 ∧ containsKey s.port1_data sid = false ∧
      ∃ ot, getKey s.port0_data sid = some ot ∧
        s2 = { s with port1_data := insertKey s.port1_data sid ts,
                      matched_pairs := s.matched_pairs + 1,
                      delays := s.delays ++ [ts - ot] }) ∨
    (pid = 1 ∧ containsKey s.port1_data sid = false ∧ getKey s.port0_data sid = none ∧
      s2 = { s with port1_data := insertKey s.port1_data sid ts }) := by
  rcases pid with _ | _ | pid
  · by_cases hc : containsKey s.port0_data sid
    · left
      simp only [process_shred, hc, if_true, Option.some.injEq] at h
      exact ⟨rfl, hc, h.symm⟩
    · rw [Bool.not_eq_true] at hc
      cases hg : getKey s.port1_data sid with
      | some ot =>
        right; right; left
        simp only [process_shred, hc, Bool.false_eq_true, if_false, hg,
          Option.some.injEq] at h
        exact ⟨rfl, hc, ot, rfl, h.symm⟩
      | none =>
        right; right; right; left
        simp only [process_shred, hc, Bool.false_eq_true, if_false, hg,
          Option.some.injEq] at h
        exact ⟨rfl, hc, rfl, h.symm⟩
  · by_cases hc : containsKey s.port1_data sid
    · right; left
      simp only [process_shred, hc, if_true, Option.some.injEq] at h
      exact ⟨rfl, hc, h.symm⟩
    · rw [Bool.not_eq_true] at hc
      cases hg : getKey s.port0_data sid with
      | some ot =>
        right; right; right; right; left
        simp only [process_shred, hc, Bool.false_eq_true, if_false, hg,
          Option.some.injEq] at h
        exact ⟨rfl, hc, ot, rfl, h.symm⟩
      | none =>
        right; right; right; right; right
        simp only [process_shred, hc, Bool.false_eq_true, if_false, hg,
          Option.some.injEq] at h
        exact ⟨rfl, hc, rfl, h.symm⟩
  · simp only [process_shred] at h
    exact Option.noConfusion h

/-- Processing an arrival on a valid feed index always succeeds and adds
at most one delay sample. -/
theorem process_shred_total (s : ProcessorState) (pid sid ts : Nat)
    (hpid : pid = 0 ∨ pid = 1) :
    ∃ s2, process_shred s pid sid ts = some s2 ∧
      s2.delays.length ≤ s.delays.length + 1 := by
  rcases hpid with rfl | rfl
  · by_cases hc : containsKey s.port0_data sid
    · exact ⟨s, by simp [process_shred, hc], by omega⟩
    · rw [Bool.not_eq_true] at hc
      cases hg : getKey s.port1_data sid with
      | some ot =>
        exact ⟨{ s with port0_data := insertKey s.port0_data sid ts,
                        matched_pairs := s.matched_pairs + 1,
                        delays := s.delays ++ [ts - ot] },
               by simp [process_shred, hc, hg], by simp⟩
      | none =>
        exact ⟨{ s with port0_data := insertKey s.port0_data sid ts },
               by simp [process_shred, hc, hg], by simp⟩
  · by_cases hc : containsKey s.port1_data sid
    · exact ⟨s, by simp [process_shred, hc], by omega⟩
    · rw [Bool.not_eq_true] at hc
      cases hg : getKey s.port0_data sid with
      | some ot =>
        exact ⟨{ s with port1_data := insertKey s.port1_data sid ts,
                        matched_pairs := s.matched_pairs + 1,
                        delays := s.delays ++ [ts - ot] },
               by simp [process_shred, hc, hg], by simp⟩
      | none =>
        exact ⟨{ s with port1_data := insertKey s.port1_data sid ts },
               by simp [process_shred, hc, hg], by simp⟩

/-- If the sample count is below the u32 truncation threshold, the stats
computation succeeds. -/
theorem report_stats_isSome (s : ProcessorState) (h : s.delays.length < U32_MOD) :
    ∃ st, report_stats s = some st := by
  by_cases he : s.delays.isEmpty
  · exact ⟨{ port0_len := s.port0_data.length, port1_len := s.port1_data.length,
             matched := s.matched_pairs, avg_delay := 0 },
           by simp [report_stats, he]⟩
  · have hpos : s.delays.length ≠ 0 := by
      simpa [List.isEmpty_iff_length_eq_zero] using he
    have hmod : s.delays.length % U32_MOD = s.delays.length := Nat.mod_eq_of_lt h
    rw [Bool.not_eq_true] at he
    refine ⟨{ port0_len := s.port0_data.length, port1_len := s.port1_data.length,
              matched := s.matched_pairs,
              avg_delay := s.delays.sum / s.delays.length }, ?_⟩
    simp only [report_stats, he, Bool.false_eq_true, if_false, hmod]
    rw [if_neg hpos]

/-- If the sample count is a nonzero multiple of the u32 modulus, the
stats computation divides by zero, i.e. panics. -/
theorem report_stats_none (s : ProcessorState) (hne : s.delays ≠ [])
    (hmod : s.delays.length % U32_MOD = 0) : report_stats s = none := by
  have he : s.delays.isEmpty = false := by simpa [List.isEmpty_iff] using hne
  simp [report_stats, he, hmod]

/-- An event is well-formed when its feed index is 0 or 1 (the only
values the listeners ever send). -/
def eventOk : ProcessorEvent → Bool
  | ProcessorEvent.shredReceived pid _ _ => pid == 0 || pid == 1
  | ProcessorEvent.cleanup _ => true
  | ProcessorEvent.statsTick => true

/-- Recognizes arrival events. -/
def isArrival : ProcessorEvent → Bool
  | ProcessorEvent.shredReceived _ _ _ => true
  | ProcessorEvent.cleanup _ => false
  | ProcessorEvent.statsTick => false

/-- The set of shred ids carried by the arrival events of a queue. -/
def eventIds : List ProcessorEvent → Finset ShredId
  | [] => ∅
  | ProcessorEvent.shredReceived _ sid _ :: es => insert sid (eventIds es)
  | ProcessorEvent.cleanup _ :: es => eventIds es
  | ProcessorEvent.statsTick :: es => eventIds es

theorem contains_false_of_getKey_none (m : PendingMap) (k : ShredId)
    (h : getKey m k = none) : containsKey m k = false := by
  by_cases hc : containsKey m k
  · obtain ⟨v, hv⟩ := getKey_isSome_of_contains m k hc
    rw [h] at hv
    exact Option.noConfusion hv
  · simpa using hc

/-- A stats tick that completes leaves the state exactly as it was. -/
theorem statsTick_state_eq (T : Nat) (s s2 : ProcessorState)
    (h : step T s ProcessorEvent.statsTick = some s2) : s2 = s := by
  simp only [step] at h
  cases hr : report_stats s with
  | none => rw [hr] at h; exact Option.noConfusion h
  | some st =>
    rw [hr] at h
    simpa using h.symm

/-- Every completed step preserves the invariant that the delay vector
holds exactly one sample per matched pair. -/
theorem step_delays_matched (T : Nat) (s s2 : ProcessorState) (e : ProcessorEvent)
    (h : step T s e = some s2) (hinv : s.delays.length = s.matched_pairs) :
    s2.delays.length = s2.matched_pairs := by
  cases e with
  | shredReceived pid sid ts =>
    simp only [step] at h
    rcases process_shred_cases s s2 pid sid ts h with
      ⟨_, _, rfl⟩ | ⟨_, _, rfl⟩ | ⟨_, _, ot, _, rfl⟩ | ⟨_, _, _, rfl⟩ |
      ⟨_, _, ot, _, rfl⟩ | ⟨_, _, _, rfl⟩ <;> simp [hinv]
  | cleanup now =>
    simp only [step, Option.some.injEq] at h
    subst h
    simpa [cleanup_data] using hinv
  | statsTick =>
    rw [statsTick_state_eq T s s2 h]
    exact hinv

/-- Runs preserve the one-sample-per-match invariant. -/
theorem runEvents_delays_matched (T : Nat) : ∀ (es : List ProcessorEvent)
    (s s2 : ProcessorState), runEvents T s es = some s2 →
    s.delays.length = s.matched_pairs → s2.delays.length = s2.matched_pairs := by
  intro es
  induction es with
  | nil =>
    intro s s2 h hinv
    simp only [runEvents, Option.some.injEq] at h
    subst h
    exact hinv
  | cons e es ih =>
    intro s s2 h hinv
    simp only [runEvents] at h
    cases hstep : step T s e with
    | none => rw [hstep] at h; exact Option.noConfusion h
    | some smid =>
      rw [hstep] at h
      exact ih smid s2 h (step_delays_matched T s smid e hstep hinv)

/-- Bounded runs of well-formed events never fail, and accumulate at most
one delay sample per event. -/
theorem runEvents_total (T : Nat) : ∀ (es : List ProcessorEvent) (s : ProcessorState),
    (∀ e ∈ es, eventOk e = true) → s.delays.length + es.length < U32_MOD →
    ∃ s2, runEvents T s es = some s2 ∧
      s2.delays.length ≤ s.delays.length + es.length := by
  intro es
  induction es with
  | nil =>
    intro s _ _
    exact ⟨s, rfl, Nat.le_refl _⟩
  | cons e es ih =>
    intro s hok hlen
    have hok2 : ∀ e2 ∈ es, eventOk e2 = true := fun e2 he2 => hok e2 (List.mem_cons_of_mem _ he2)
    simp only [List.length_cons] at hlen
    cases e with
    | shredReceived pid sid ts =>
      have hpid : pid = 0 ∨ pid = 1 := by
        have hm := hok _ (List.mem_cons_self _ _)
        simpa [eventOk] using hm
      obtain ⟨s2, hstep, hl2⟩ := process_shred_total s pid sid ts hpid
      obtain ⟨s3, hrun, hl3⟩ := ih s2 hok2 (by omega)
      refine ⟨s3, ?_, ?_⟩
      · simp [runEvents, step, hstep, hrun]
      · simp only [List.length_cons]
        omega
    | cleanup now =>
      have hdel : (cleanup_data s now T).delays = s.delays := rfl
      obtain ⟨s3, hrun, hl3⟩ := ih (cleanup_data s now T) hok2 (by rw [hdel]; omega)
      refine ⟨s3, ?_, ?_⟩
      · simp [runEvents, step, hrun]
      · rw [hdel] at hl3
        simp only [List.length_cons]
        omega
    | statsTick =>
      obtain ⟨st, hst⟩ := report_stats_isSome s (by omega)
      obtain ⟨s3, hrun, hl3⟩ := ih s hok2 (by omega)
      refine ⟨s3, ?_, ?_⟩
      · simp [runEvents, step, hst, hrun]
      · simp only [List.length_cons]
        omega

/-- Every completed arrival preserves the invariant that the matched
count equals the number of ids common to the two pending maps, and only
the arriving id can join a key set. -/
theorem process_shred_matched_card (s s2 : ProcessorState) (pid sid ts : Nat)
    (h : process_shred s pid sid ts = some s2)
    (hinv : s.matched_pairs = (keyFinset s.port0_data ∩ keyFinset s.port1_data).card) :
    s2.matched_pairs = (keyFinset s2.port0_data ∩ keyFinset s2.port1_data).card ∧
    keyFinset s2.port0_data ⊆ insert sid (keyFinset s.port0_data) ∧
    keyFinset s2.port1_data ⊆ insert sid (keyFinset s.port1_data) := by
  rcases process_shred_cases s s2 pid sid ts h with
    ⟨_, hc, rfl⟩ | ⟨_, hc, rfl⟩ | ⟨_, hc, ot, hg, rfl⟩ | ⟨_, hc, hg, rfl⟩ |
    ⟨_, hc, ot, hg, rfl⟩ | ⟨_, hc, hg, rfl⟩
  · exact ⟨hinv, Finset.subset_insert _ _, Finset.subset_insert _ _⟩
  · exact ⟨hinv, Finset.subset_insert _ _, Finset.subset_insert _ _⟩
  · have hsid1 : sid ∈ keyFinset s.port1_data :=
      (mem_keyFinset _ _).mpr (contains_of_getKey_some _ _ _ hg)
    have hsid0 : sid ∉ keyFinset s.port0_data := by
      rw [mem_keyFinset, hc]
      simp
    refine ⟨?_, ?_, ?_⟩
    · simp only [keyFinset_insertKey]
      rw [Finset.insert_inter_of_mem hsid1,
        Finset.card_insert_of_not_mem (fun hmem => hsid0 (Finset.mem_inter.mp hmem).1), hinv]
    · rw [keyFinset_insertKey]
    · exact Finset.subset_insert _ _
  · have hsid1 : sid ∉ keyFinset s.port1_data := by
      rw [mem_keyFinset, contains_false_of_getKey_none _ _ hg]
      simp
    refine ⟨?_, ?_, ?_⟩
    · simp only [keyFinset_insertKey]
      rw [Finset.insert_inter_of_not_mem hsid1]
      exact hinv
    · rw [keyFinset_insertKey]
    · exact Finset.subset_insert _ _
  · have hsid0 : sid ∈ keyFinset s.port0_data :=
      (mem_keyFinset _ _).mpr (contains_of_getKey_some _ _ _ hg)
    have hsid1 : sid ∉ keyFinset s.port1_data := by
      rw [mem_keyFinset, hc]
      simp
    refine ⟨?_, ?_, ?_⟩
    · simp only [keyFinset_insertKey]
      rw [Finset.inter_insert_of_mem hsid0,
        Finset.card_insert_of_not_mem (fun hmem => hsid1 (Finset.mem_inter.mp hmem).2), hinv]
    · exact Finset.subset_insert _ _
    · rw [keyFinset_insertKey]
  · have hsid0 : sid ∉ keyFinset s.port0_data := by
      rw [mem_keyFinset, contains_false_of_getKey_none _ _ hg]
      simp
    refine ⟨?_, ?_, ?_⟩
    · simp only [keyFinset_insertKey]
      rw [Finset.inter_insert_of_not_mem hsid0]
      exact hinv
    · exact Finset.subset_insert _ _
    · rw [keyFinset_insertKey]

/-- Runs of arrival events preserve the matched-count-equals-shared-keys
invariant, and key sets only grow by ids occurring in the queue. -/
theorem runEvents_matched_card (T : Nat) : ∀ (es : List ProcessorEvent)
    (s s2 : ProcessorState),
    (∀ e ∈ es, isArrival e = true) →
    runEvents T s es = some s2 →
    s.matched_pairs = (keyFinset s.port0_data ∩ keyFinset s.port1_data).card →
    s2.matched_pairs = (keyFinset s2.port0_data ∩ keyFinset s2.port1_data).card ∧
    keyFinset s2.port0_data ⊆ keyFinset s.port0_data ∪ eventIds es ∧
    keyFinset s2.port1_data ⊆ keyFinset s.port1_data ∪ eventIds es := by
  intro es
  induction es with
  | nil =>
    intro s s2 _ h hinv
    simp only [runEvents, Option.some.injEq] at h
    subst h
    exact ⟨hinv, by simp [eventIds], by simp [eventIds]⟩
  | cons e es ih =>
    intro s s2 harr h hinv
    have harr2 : ∀ e2 ∈ es, isArrival e2 = true :=
      fun e2 he2 => harr e2 (List.mem_cons_of_mem _ he2)
    cases e with
    | shredReceived pid sid ts =>
      simp only [runEvents] at h
      cases hstep : step T s (ProcessorEvent.shredReceived pid sid ts) with
      | none => rw [hstep] at h; exact Option.noConfusion h
      | some smid =>
        rw [hstep] at h
        simp only [step] at hstep
        obtain ⟨hinv2, hsub0, hsub1⟩ := process_shred_matched_card s smid pid sid ts hstep hinv
        obtain ⟨hinv3, hsub0b, hsub1b⟩ := ih smid s2 harr2 h hinv2
        refine ⟨hinv3, ?_, ?_⟩
        · refine hsub0b.trans ?_
          refine (Finset.union_subset_union hsub0 (Finset.Subset.refl _)).trans ?_
          rw [eventIds, Finset.insert_union, Finset.union_insert]
        · refine hsub1b.trans ?_
          refine (Finset.union_subset_union hsub1 (Finset.Subset.refl _)).trans ?_
          rw [eventIds, Finset.insert_union, Finset.union_insert]
    | cleanup now =>
      have := harr _ (List.mem_cons_self _ _)
      simp [isArrival] at this
    | statsTick =>
      have := harr _ (List.mem_cons_self _ _)
      simp [isArrival] at this

theorem process_shred_contains_mono (s s2 : ProcessorState) (pid sid ts k : Nat)
    (h : process_shred s pid sid ts = some s2) :
    (containsKey s.port0_data k = true → containsKey s2.port0_data k = true) ∧
    (containsKey s.port1_data k = true → containsKey s2.port1_data k = true) := by
  rcases process_shred_cases s s2 pid sid ts h with
    ⟨_, _, rfl⟩ | ⟨_, _, rfl⟩ | ⟨_, _, ot, _, rfl⟩ | ⟨_, _, _, rfl⟩ |
    ⟨_, _, ot, _, rfl⟩ | ⟨_, _, _, rfl⟩ <;>
    exact ⟨fun hk => by first | exact hk | exact containsKey_insertKey_of _ _ _ _ hk,
           fun hk => by first | exact hk | exact containsKey_insertKey_of _ _ _ _ hk⟩

/-! The claims. -/

/-- Claim C1 counterexample: the recorded delay is not the absolute
difference of the two first-seen timestamps and is not independent of the
processing order. Feed 0 sees id 7 at t=5, feed 1 sees it at t=50: with
the feed-0 event processed first the sample is 45, with the feed-1 event
processed first the sample is 0 (saturating subtraction), while the
absolute difference is 45 in both cases. -/
theorem c1_delay_not_order_independent :
    (runEvents 60 initState
      [ProcessorEvent.shredReceived 0 7 5,
       ProcessorEvent.shredReceived 1 7 50]).map ProcessorState.delays = some [45] ∧
    (runEvents 60 initState
      [ProcessorEvent.shredReceived 1 7 50,
       ProcessorEvent.shredReceived 0 7 5]).map ProcessorState.delays = some [0] ∧
    (45 : Nat) ≠ 0 := by decide

/-- Claim C1, amended: for every matched identifier, the recorded delay
equals the saturating difference between the match-triggering event's
timestamp and the other feed's stored first-seen timestamp (zero when the
stored timestamp is larger); it therefore depends on which feed's arrival
the engine processed first. -/
theorem c1_delay_saturating (s : ProcessorState) (sid ts ot : Nat) :
    (containsKey s.port0_data sid = false → getKey s.port1_data sid = some ot →
      process_shred s 0 sid ts =
        some { s with port0_data := insertKey s.port0_data sid ts,
                      matched_pairs := s.matched_pairs + 1,
                      delays := s.delays ++ [ts - ot] }) ∧
    (containsKey s.port1_data sid = false → getKey s.port0_data sid = some ot →
      process_shred s 1 sid ts =
        some { s with port1_data := insertKey s.port1_data sid ts,
                      matched_pairs := s.matched_pairs + 1,
                      delays := s.delays ++ [ts - ot] }) := by
  constructor <;> intro hc hg <;> simp [process_shred, hc, hg]

/-- Claim C1 witness: a concrete match where the recorded sample is the
saturating difference 5 - 50 = 0. -/
theorem c1_delay_saturating_witness :
    containsKey ([] : PendingMap) 7 = false ∧
    getKey [(7, 50)] 7 = some 50 ∧
    process_shred { port0_data := [], port1_data := [(7, 50)],
                    matched_pairs := 0, delays := [] } 0 7 5 =
      some { port0_data := [(7, 5)], port1_data := [(7, 50)],
             matched_pairs := 1, delays := [0] } := by
  refine ⟨by decide, by decide, ?_⟩
  have h := (c1_delay_saturating
    { port0_data := [], port1_data := [(7, 50)], matched_pairs := 0, delays := [] }
    7 5 50).1 (by decide) (by decide)
  exact h.trans (by decide)

/-- Claim C2: over any sequence of arrival events, the matched count is
bounded by the number of distinct ids, and an arrival whose id is already
present in its feed's pending map changes nothing (so the first recorded
timestamp is never overwritten). -/
theorem c2_dedup_idempotent (T : Nat) (es : List ProcessorEvent) (s2 : ProcessorState)
    (harr : ∀ e ∈ es, isArrival e = true)
    (hrun : runEvents T initState es = some s2) :
    s2.matched_pairs ≤ (eventIds es).card ∧
    (∀ sid ts : Nat, containsKey s2.port0_data sid = true →
      process_shred s2 0 sid ts = some s2) ∧
    (∀ sid ts : Nat, containsKey s2.port1_data sid = true →
      process_shred s2 1 sid ts = some s2) := by
  refine ⟨?_, ?_, ?_⟩
  · have hinit : initState.matched_pairs =
        (keyFinset initState.port0_data ∩ keyFinset initState.port1_data).card := by
      simp [initState, keyFinset]
    obtain ⟨hinv, hsub0, -⟩ := runEvents_matched_card T es initState s2 harr hrun hinit
    rw [hinv]
    calc (keyFinset s2.port0_data ∩ keyFinset s2.port1_data).card
        ≤ (keyFinset s2.port0_data).card := Finset.card_le_card Finset.inter_subset_left
      _ ≤ (keyFinset initState.port0_data ∪ eventIds es).card := Finset.card_le_card hsub0
      _ = (eventIds es).card := by simp [initState, keyFinset]
  · intro sid ts hc
    simp [process_shred, hc]
  · intro sid ts hc
    simp [process_shred, hc]

/-- Claim C2 witness: id 5 arrives twice on feed 0 and twice on feed 1;
the matched count is 1, and a further duplicate arrival is a no-op. -/
theorem c2_dedup_idempotent_witness :
    ({ port0_data := [(5, 10)], port1_data := [(5, 20)],
       matched_pairs := 1, delays := [10] } : ProcessorState).matched_pairs ≤
      (eventIds [ProcessorEvent.shredReceived 0 5 10, ProcessorEvent.shredReceived 0 5 11,
        ProcessorEvent.shredReceived 1 5 20, ProcessorEvent.shredReceived 1 5 30]).card ∧
    process_shred { port0_data := [(5, 10)], port1_data := [(5, 20)],
                    matched_pairs := 1, delays := [10] } 0 5 99 =
      some { port0_data := [(5, 10)], port1_data := [(5, 20)],
             matched_pairs := 1, delays := [10] } := by
  have h := c2_dedup_idempotent 60
    [ProcessorEvent.shredReceived 0 5 10, ProcessorEvent.shredReceived 0 5 11,
     ProcessorEvent.shredReceived 1 5 20, ProcessorEvent.shredReceived 1 5 30]
    { port0_data := [(5, 10)], port1_data := [(5, 20)],
      matched_pairs := 1, delays := [10] }
    (by decide) (by decide)
  exact ⟨h.1, h.2.1 5 99 (by decide)⟩

/-- Claim C3: a cleanup tick removes every entry recorded at a time `t`
with `now > t + timeout` from both maps, and in particular every entry
whose timestamp is older than `now` minus the retention timeout. -/
theorem c3_cleanup_evicts (s : ProcessorState) (now timeout : Nat) :
    (∀ sid t : Nat, now > t + timeout →
      (sid, t) ∉ (cleanup_data s now timeout).port0_data ∧
      (sid, t) ∉ (cleanup_data s now timeout).port1_data) ∧
    (∀ sid t : Nat, t < now - timeout →
      (sid, t) ∉ (cleanup_data s now timeout).port0_data ∧
      (sid, t) ∉ (cleanup_data s now timeout).port1_data) := by
  constructor <;> intro sid t h <;> constructor <;>
  · simp only [cleanup_data, List.mem_filter]
    rintro ⟨-, hdec⟩
    simp only [decide_eq_true_eq] at hdec
    omega

/-- Claim C3 witness: an entry recorded at t=5 is evicted by a cleanup at
now=100 with timeout 10. -/
theorem c3_cleanup_evicts_witness :
    (100 : Nat) > 5 + 10 ∧
    (1, 5) ∉ (cleanup_data { port0_data := [(1, 5)], port1_data := [(1, 5)],
                             matched_pairs := 0, delays := [] } 100 10).port0_data := by
  have h := (c3_cleanup_evicts
    { port0_data := [(1, 5)], port1_data := [(1, 5)],
      matched_pairs := 0, delays := [] } 100 10).1 1 5 (by decide)
  exact ⟨by decide, h.1⟩

/-- Claim C4: if a previously-unseen id arrives on feed 0 at t0 and then
on feed 1 at t1 > t0, no match fires on the first event, the match fires
on the second event with exactly one delay sample t1 - t0 (a genuine
difference, witnessed by t0 + (t1 - t0) = t1), and the matched count
rises from 0 to exactly 1. -/
theorem c4_in_order_match (T sid t0 t1 : Nat) (h : t0 < t1) :
    runEvents T initState
      [ProcessorEvent.shredReceived 0 sid t0, ProcessorEvent.shredReceived 1 sid t1] =
      some { port0_data := [(sid, t0)], port1_data := [(sid, t1)],
             matched_pairs := 1, delays := [t1 - t0] } ∧
    t0 + (t1 - t0) = t1 ∧
    runEvents T initState [ProcessorEvent.shredReceived 0 sid t0] =
      some { port0_data := [(sid, t0)], port1_data := [],
             matched_pairs := 0, delays := [] } := by
  refine ⟨?_, by omega, ?_⟩
  · simp [runEvents, step, process_shred, containsKey, getKey, insertKey, initState]
  · simp [runEvents, step, process_shred, containsKey, getKey, insertKey, initState]

/-- Claim C4 witness: scenario A of the design document, id 7 at t=0 on
feed 0 and t=50 on feed 1 gives one match with delay 50. -/
theorem c4_in_order_match_witness :
    (0 : Nat) < 50 ∧
    runEvents 60 initState
      [ProcessorEvent.shredReceived 0 7 0, ProcessorEvent.shredReceived 1 7 50] =
      some { port0_data := [(7, 0)], port1_data := [(7, 50)],
             matched_pairs := 1, delays := [50] } := by
  refine ⟨by decide, ?_⟩
  have h := c4_in_order_match 60 7 0 50 (by decide)
  exact h.1.trans (by decide)

/-- Claim C5 counterexample: the delay accumulator is not bounded by any
constant independent of the number of matches — for every candidate bound
there is an event sequence whose run stores more samples than the bound. -/
theorem c5_delays_unbounded :
    ¬ ∃ c : Nat, ∀ (es : List ProcessorEvent) (s : ProcessorState),
        runEvents 60 initState es = some s → s.delays.length ≤ c := by
  rintro ⟨c, hc⟩
  obtain ⟨s, hrun, -, -, hlen⟩ := mkMatch_spec 60 (c + 1)
  have := hc _ _ hrun
  omega

/-- Claim C5, amended: the delay accumulator is a vector holding every
sample individually — after any run its length equals the matched count,
so its memory grows linearly with the number of matched pairs instead of
staying bounded. -/
theorem c5_delays_one_per_match (T : Nat) (es : List ProcessorEvent) (s : ProcessorState)
    (h : runEvents T initState es = some s) :
    s.delays.length = s.matched_pairs :=
  runEvents_delays_matched T es initState s h rfl

/-- Claim C5 witness: a run with one match stores one sample. -/
theorem c5_delays_one_per_match_witness :
    runEvents 60 initState
      [ProcessorEvent.shredReceived 0 3 1, ProcessorEvent.shredReceived 1 3 4] =
      some { port0_data := [(3, 1)], port1_data := [(3, 4)],
             matched_pairs := 1, delays := [3] } ∧
    ({ port0_data := [(3, 1)], port1_data := [(3, 4)],
       matched_pairs := 1, delays := [3] } : ProcessorState).delays.length =
      ({ port0_data := [(3, 1)], port1_data := [(3, 4)],
         matched_pairs := 1, delays := [3] } : ProcessorState).matched_pairs := by
  have hrun : runEvents 60 initState
      [ProcessorEvent.shredReceived 0 3 1, ProcessorEvent.shredReceived 1 3 4] =
      some { port0_data := [(3, 1)], port1_data := [(3, 4)],
             matched_pairs := 1, delays := [3] } := by decide
  exact ⟨hrun, c5_delays_one_per_match 60 _ _ hrun⟩

/-- Claim C6 counterexample: a reachable state with 2^32 delay samples
makes the stats tick divide by zero (the truncated u32 length) instead of
reporting the arithmetic mean. -/
theorem c6_average_panics_at_u32 :
    ∃ s : ProcessorState,
      runEvents 60 initState (mkMatchEvents U32_MOD) = some s ∧
      s.delays ≠ [] ∧ report_stats s = none := by
  obtain ⟨s, hrun, -, -, hlen⟩ := mkMatch_spec 60 U32_MOD
  have hne : s.delays ≠ [] := by
    intro h
    rw [h] at hlen
    simp [U32_MOD] at hlen
  exact ⟨s, hrun, hne,
    report_stats_none s hne (by rw [hlen]; exact Nat.mod_self _)⟩

/-- Claim C6, amended: on a stats tick the reported average is zero when
no matches have occurred, and otherwise equals the floor of the sum of
all accumulated samples divided by their number — provided the sample
count is below 2^32 (beyond that the truncating u32 cast corrupts or
zeroes the divisor). -/
theorem c6_average_delay (s : ProcessorState) (h : s.delays.length < U32_MOD) :
    (s.delays = [] → report_stats s =
      some { port0_len := s.port0_data.length, port1_len := s.port1_data.length,
             matched := s.matched_pairs, avg_delay := 0 }) ∧
    (s.delays ≠ [] → report_stats s =
      some { port0_len := s.port0_data.length, port1_len := s.port1_data.length,
             matched := s.matched_pairs,
             avg_delay := s.delays.sum / s.delays.length }) := by
  constructor
  · intro he
    simp [report_stats, he]
  · intro hne
    have hpos : s.delays.length ≠ 0 := by simpa [List.length_eq_zero] using hne
    have hmod : s.delays.length % U32_MOD = s.delays.length := Nat.mod_eq_of_lt h
    have hie : s.delays.isEmpty = false := by simpa [List.isEmpty_iff] using hne
    simp only [report_stats, hie, Bool.false_eq_true, if_false, hmod]
    rw [if_neg hpos]

/-- Claim C6 witness: two samples 3 and 5 average to 4. -/
theorem c6_average_delay_witness :
    ([3, 5] : List Nat).length < U32_MOD ∧
    report_stats { port0_data := [], port1_data := [],
                   matched_pairs := 2, delays := [3, 5] } =
      some { port0_len := 0, port1_len := 0, matched := 2, avg_delay := 4 } := by
  refine ⟨by decide, ?_⟩
  have h := (c6_average_delay
    { port0_data := [], port1_data := [], matched_pairs := 2, delays := [3, 5] }
    (by decide)).2 (by decide)
  exact h.trans (by decide)

/-- Claim C7: a match does not evict the matched id — afterwards the id is
in both pending maps, a duplicate arrival of it on either feed changes
nothing, and no later arrival processing removes it from either map. -/
theorem c7_match_retained (s s2 : ProcessorState) (pid sid ts : Nat)
    (hstep : process_shred s pid sid ts = some s2)
    (hmatch : s2.matched_pairs = s.matched_pairs + 1) :
    containsKey s2.port0_data sid = true ∧ containsKey s2.port1_data sid = true ∧
    (∀ ts2 : Nat, process_shred s2 0 sid ts2 = some s2) ∧
    (∀ ts2 : Nat, process_shred s2 1 sid ts2 = some s2) ∧
    (∀ (pid2 sid2 ts2 : Nat) (s3 : ProcessorState),
      process_shred s2 pid2 sid2 ts2 = some s3 →
      containsKey s3.port0_data sid = true ∧ containsKey s3.port1_data sid = true) := by
  have hboth : containsKey s2.port0_data sid = true ∧ containsKey s2.port1_data sid = true := by
    rcases process_shred_cases s s2 pid sid ts hstep with
      ⟨-, hc, rfl⟩ | ⟨-, hc, rfl⟩ | ⟨-, hc, ot, hg, rfl⟩ | ⟨-, hc, hg, rfl⟩ |
      ⟨-, hc, ot, hg, rfl⟩ | ⟨-, hc, hg, rfl⟩
    · omega
    · omega
    · exact ⟨containsKey_insertKey_self _ _ _, contains_of_getKey_some _ _ _ hg⟩
    · simp at hmatch
    · exact ⟨contains_of_getKey_some _ _ _ hg, containsKey_insertKey_self _ _ _⟩
    · simp at hmatch
  refine ⟨hboth.1, hboth.2, ?_, ?_, ?_⟩
  · intro ts2
    simp [process_shred, hboth.1]
  · intro ts2
    simp [process_shred, hboth.2]
  · intro pid2 sid2 ts2 s3 h3
    have hm := process_shred_contains_mono s2 s3 pid2 sid2 ts2 sid h3
    exact ⟨hm.1 hboth.1, hm.2 hboth.2⟩

/-- Claim C7 witness: after the match of id 7, id 7 sits in both maps, a
duplicate of it is discarded, and an unrelated arrival keeps it there. -/
theorem c7_match_retained_witness :
    process_shred { port0_data := [(7, 5)], port1_data := [],
                    matched_pairs := 0, delays := [] } 1 7 9 =
      some { port0_data := [(7, 5)], port1_data := [(7, 9)],
             matched_pairs := 1, delays := [4] } ∧
    containsKey ([(7, 5)] : PendingMap) 7 = true ∧
    containsKey ([(7, 9)] : PendingMap) 7 = true ∧
    process_shred { port0_data := [(7, 5)], port1_data := [(7, 9)],
                    matched_pairs := 1, delays := [4] } 0 7 11 =
      some { port0_data := [(7, 5)], port1_data := [(7, 9)],
             matched_pairs := 1, delays := [4] } := by
  have hstep : process_shred { port0_data := [(7, 5)], port1_data := [],
                               matched_pairs := 0, delays := [] } 1 7 9 =
      some { port0_data := [(7, 5)], port1_data := [(7, 9)],
             matched_pairs := 1, delays := [4] } := by decide
  have h := c7_match_retained _ _ 1 7 9 hstep (by decide)
  exact ⟨hstep, h.1, h.2.1, h.2.2.2.1 11⟩

/-- Claim C8: handling a stats tick that completes leaves the engine state
(pending maps, matched count, delay accumulator) exactly unchanged. -/
theorem c8_stats_tick_pure (T : Nat) (s s2 : ProcessorState)
    (h : step T s ProcessorEvent.statsTick = some s2) : s2 = s :=
  statsTick_state_eq T s s2 h

/-- Claim C8 witness: a stats tick on the initial state returns it
unchanged. -/
theorem c8_stats_tick_pure_witness :
    step 60 initState ProcessorEvent.statsTick = some initState ∧
    initState = initState := by
  have hs : step 60 initState ProcessorEvent.statsTick = some initState := by decide
  exact ⟨hs, c8_stats_tick_pure 60 initState initState hs⟩

/-- Claim C9 counterexample: a queue of well-formed arrival events (all on
feeds 0 and 1) followed by a stats tick panics: after 2^32 matches the
average computation divides by the truncated length 0. -/
theorem c9_stats_tick_panics :
    runEvents 60 initState (mkMatchEvents U32_MOD ++ [ProcessorEvent.statsTick]) = none := by
  obtain ⟨s, hrun, -, -, hlen⟩ := mkMatch_spec 60 U32_MOD
  have hne : s.delays ≠ [] := by
    intro h
    rw [h] at hlen
    simp [U32_MOD] at hlen
  have hnone : report_stats s = none := report_stats_none s hne (by rw [hlen]; exact Nat.mod_self _)
  rw [runEvents_append 60 _ _ initState, hrun]
  simp [runEvents, step, hnone]

/-- Claim C9, amended: for every event sequence whose arrivals carry feed
index 0 or 1 and which is shorter than 2^32 events, no handler panics:
the run completes on possibly-empty maps, the unreachable feed-index arm
is never taken, and the empty-sample guard prevents division by zero
(which otherwise occurs once the sample count reaches a nonzero multiple
of 2^32). -/
theorem c9_no_panic_bounded (T : Nat) (es : List ProcessorEvent)
    (hok : ∀ e ∈ es, eventOk e = true) (hlen : es.length < U32_MOD) :
    ∃ s, runEvents T initState es = some s := by
  obtain ⟨s2, hrun, -⟩ := runEvents_total T es initState hok
    (by simp only [initState]; simpa using hlen)
  exact ⟨s2, hrun⟩

/-- Claim C9 witness: a short queue with an arrival on each feed, a
cleanup on empty-ish maps and a stats tick runs to completion. -/
theorem c9_no_panic_bounded_witness :
    (∀ e ∈ [ProcessorEvent.cleanup 2, ProcessorEvent.shredReceived 0 9 1,
            ProcessorEvent.shredReceived 1 9 3, ProcessorEvent.statsTick],
      eventOk e = true) ∧
    ∃ s, runEvents 60 initState
      [ProcessorEvent.cleanup 2, ProcessorEvent.shredReceived 0 9 1,
       ProcessorEvent.shredReceived 1 9 3, ProcessorEvent.statsTick] = some s := by
  exact ⟨by decide, c9_no_panic_bounded 60 _ (by decide) (by decide)⟩

/-- Claim C10: the stats divisor is the sample count cast to u32 — below
2^32 it is the true count, at a nonzero multiple of 2^32 it is zero and
the division panics, and whenever a snapshot is produced its average is
the sum divided by the count modulo 2^32. -/
theorem c10_divisor_truncated (s : ProcessorState) (h : s.delays ≠ []) :
    (s.delays.length < U32_MOD → report_stats s =
      some { port0_len := s.port0_data.length, port1_len := s.port1_data.length,
             matched := s.matched_pairs,
             avg_delay := s.delays.sum / s.delays.length }) ∧
    (s.delays.length % U32_MOD = 0 → report_stats s = none) ∧
    (∀ st, report_stats s = some st →
      st.avg_delay = s.delays.sum / (s.delays.length % U32_MOD)) := by
  have hie : s.delays.isEmpty = false := by simpa [List.isEmpty_iff] using h
  refine ⟨?_, report_stats_none s h, ?_⟩
  · intro hlt
    have hpos : s.delays.length ≠ 0 := by simpa [List.length_eq_zero] using h
    have hmod : s.delays.length % U32_MOD = s.delays.length := Nat.mod_eq_of_lt hlt
    simp only [report_stats, hie, Bool.false_eq_true, if_false, hmod]
    rw [if_neg hpos]
  · intro st hst
    simp only [report_stats, hie, Bool.false_eq_true, if_false] at hst
    by_cases hz : s.delays.length % U32_MOD = 0
    · rw [if_pos hz] at hst
      exact Option.noConfusion hst
    · rw [if_neg hz] at hst
      simp only [Option.some.injEq] at hst
      rw [← hst]

/-- Claim C10 witness: two samples 5 and 7 divide by the true count 2,
giving average 6. -/
theorem c10_divisor_truncated_witness :
    ([5, 7] : List Nat) ≠ [] ∧
    report_stats { port0_data := [], port1_data := [],
                   matched_pairs := 1, delays := [5, 7] } =
      some { port0_len := 0, port1_len := 0, matched := 1, avg_delay := 6 } := by
  refine ⟨by decide, ?_⟩
  have h := (c10_divisor_truncated
    { port0_data := [], port1_data := [], matched_pairs := 1, delays := [5, 7] }
    (by decide)).1 (by decide)
  exact h.trans (by decide)

end ShredPerf
